import Mathlib

/-!
Verification of the fiat-lux-agents filter/query execution engine.

This file gives a shallow embedding of the core engine:
* `filter_engine.py`   — the filter stack (`FilterEngine.apply` and helpers),
* `hierarchical_filter_engine.py` — aggregate enrichment (`enrich`),
* `query_engine.py`    — `validate_query`, `execute_query`, `execute_fig_code`,
and proves the spec's testable properties over the embedding.

Python dicts are modelled as association lists with unique keys; Python
numbers (int and float) as exact rationals; `eval` of a lambda string and
`exec` of a code snippet, which belong to the Python runtime rather than the
repository, are modelled as oracle parameters that the theorems quantify over.
-/

namespace FiatLux

/-- A Python value as used by the engine: `None`, booleans, numbers
(int and float, modelled as exact rationals), strings, lists and dicts. -/
inductive Value where
  | null
  | boolV (b : Bool)
  | numV (q : ℚ)
  | strV (s : String)
  | listV (elems : List Value)
  | dictV (pairs : List (String × Value))
deriving Repr

/-- A record / item / entity: a Python dict keyed by strings.  Keys are
assumed unique, matching Python dict semantics. -/
abbrev Record := List (String × Value)

/-- The numeric content of a Python bool, for bool/int equality coercion. -/
def boolNum (b : Bool) : ℚ := if b then 1 else 0

theorem lookup_sizeOf_lt (b : List (String × Value)) (k : String) (w : Value)
    (h : List.lookup k b = some w) : sizeOf w < sizeOf b := by
  induction b with
  | nil => simp [List.lookup] at h
  | cons p rest ih =>
    obtain ⟨k', v'⟩ := p
    rw [List.lookup] at h
    by_cases hk : k == k'
    · simp [hk] at h
      subst h
      simp
      omega
    · simp [hk] at h
      have := ih h
      simp
      omega

mutual

/-- Python `==` on values: structural equality with Python's bool/int
coercion (`True == 1`) and order-insensitive dict comparison. -/
def pyEq : Value → Value → Bool
  | .null, .null => true
  | .boolV a, .boolV b => a == b
  | .boolV a, .numV q => boolNum a == q
  | .numV q, .boolV b => q == boolNum b
  | .numV a, .numV b => a == b
  | .strV a, .strV b => a == b
  | .listV a, .listV b => pyEqList a b
  | .dictV a, .dictV b => a.length == b.length && pyEqDictSub a b
  | _, _ => false
termination_by x y => sizeOf x + sizeOf y
decreasing_by
  all_goals simp_wf
  all_goals omega

/-- Pointwise Python `==` on lists. -/
def pyEqList : List Value → List Value → Bool
  | [], [] => true
  | a :: as', b :: bs' => pyEq a b && pyEqList as' bs'
  | _, _ => false
termination_by a b => sizeOf a + sizeOf b
decreasing_by
  all_goals simp_wf
  all_goals omega

/-- Every key of the first dict is bound in the second to a `pyEq`-equal
value (with unique keys and equal lengths this is Python dict equality). -/
def pyEqDictSub : List (String × Value) → List (String × Value) → Bool
  | [], _ => true
  | (k, v) :: rest, b =>
    (match h : List.lookup k b with
     | some w => pyEq v w
     | none => false) &&
    pyEqDictSub rest b
termination_by a b => sizeOf a + sizeOf b
decreasing_by
  all_goals simp_wf
  all_goals first
    | omega
    | (have hlw := lookup_sizeOf_lt _ _ _ (by assumption); omega)

end

/-- Python truthiness: `None`, `False`, `0`, `""`, `[]`, and `{}` are falsy. -/
def pyTruthy : Value → Bool
  | .null => false
  | .boolV b => b
  | .numV q => !(decide (q = 0))
  | .strV s => !(decide (s = ""))
  | .listV l => !l.isEmpty
  | .dictV d => !d.isEmpty

/-- Python `d[k] = v` on a dict modelled as an association list: overwrite
the existing binding in place (keeping its position, as Python dicts keep
insertion order) or append a fresh one. -/
def dictSet (r : Record) (k : String) (v : Value) : Record :=
  match r with
  | [] => [(k, v)]
  | (k', v') :: rest => if k' = k then (k, v) :: rest else (k', v') :: dictSet rest k v

theorem lookup_dictSet_self (r : Record) (k : String) (v : Value) :
    List.lookup k (dictSet r k v) = some v := by
  induction r with
  | nil => simp [dictSet, List.lookup]
  | cons p rest ih =>
    obtain ⟨k', v'⟩ := p
    by_cases h : k' = k
    · simp [dictSet, h, List.lookup]
    · have hne : (k == k') = false := beq_eq_false_iff_ne.mpr (fun hh => h hh.symm)
      simp [dictSet, h, List.lookup, hne, ih]

theorem lookup_dictSet_ne (r : Record) (k k' : String) (v : Value) (h : k' ≠ k) :
    List.lookup k' (dictSet r k v) = List.lookup k' r := by
  have hne : (k' == k) = false := beq_eq_false_iff_ne.mpr h
  induction r with
  | nil => simp [dictSet, List.lookup, hne]
  | cons p rest ih =>
    obtain ⟨k₀, v₀⟩ := p
    by_cases hk : k₀ = k
    · subst hk
      simp [dictSet, List.lookup, hne]
    · by_cases hk' : k' = k₀
      · subst hk'
        simp [dictSet, hk, List.lookup]
      · have hne' : (k' == k₀) = false := beq_eq_false_iff_ne.mpr hk'
        simp [dictSet, hk, List.lookup, hne', ih]

/-! ## FilterEngine (`filter_engine.py`)

`_apply_computed` compiles its condition with Python `eval`; that call into
the Python runtime is modelled by an oracle of type `LambdaOracle`: `none`
models `eval` raising (a broken lambda), `some f` a compiled predicate, and
`f item = none` models the predicate raising on that record while
`f item = some b` gives the truthiness of its return value. -/

/-- Oracle model of `eval(lambda_expr)` followed by per-record calls. -/
abbrev LambdaOracle := Value → Option (Record → Option Bool)

/-- One filter specification, as the dict consumed by `_apply_single`:
`filter_type`, `field`, `condition`, plus `id` and the optional `enabled`
flag (`filter_spec.get('enabled', True)`).  The `description` key is never
read by the engine and is omitted. -/
structure FilterSpec where
  id : String
  filter_type : String
  field : String
  condition : Value
  enabled : Option Bool

/-- `filter_spec.get('enabled', True)`. -/
def enabledB (fs : FilterSpec) : Bool := fs.enabled.getD true

/-- The body of `_apply_field_match`'s loop: keep the item when
`filter_type == 'include'` and `item.get(field) == condition` matches, or
when `filter_type == 'exclude'` and it does not. -/
def fieldMatchKeep (field : String) (condition : Value) (ftype : String)
    (item : Record) : Bool :=
  let ms := pyEq ((List.lookup field item).getD .null) condition
  (decide (ftype = "include") && ms) || (decide (ftype = "exclude") && !ms)

/-- `_apply_field_match`: the loop appends exactly the kept items. -/
def applyFieldMatch (items : List Record) (field : String) (condition : Value)
    (ftype : String) : List Record :=
  items.filter (fieldMatchKeep field condition ftype)

/-- The body of `_apply_computed`'s loop: a record whose evaluation raises
(`f item = none`) is skipped (`except Exception: continue`); otherwise the
include/exclude polarity applies to the predicate's truthiness. -/
def computedKeep (f : Record → Option Bool) (ftype : String) (item : Record) : Bool :=
  match f item with
  | none => false
  | some ms => (decide (ftype = "include") && ms) || (decide (ftype = "exclude") && !ms)

/-- `_apply_computed`: if `eval(lambda_expr)` raises the input is returned
unmodified; otherwise the loop keeps exactly the `computedKeep` items. -/
def applyComputed (oracle : LambdaOracle) (items : List Record)
    (lambdaExpr : Value) (ftype : String) : List Record :=
  match oracle lambdaExpr with
  | none => items
  | some f => items.filter (computedKeep f ftype)

/-- `_apply_single`: dispatch on `field == 'computed'`. -/
def applySingle (oracle : LambdaOracle) (items : List Record) (fs : FilterSpec) :
    List Record :=
  if fs.field = "computed" then
    applyComputed oracle items fs.condition fs.filter_type
  else
    applyFieldMatch items fs.field fs.condition fs.filter_type

/-- `FilterEngine.apply`: fold the enabled filters over the data in stack
order; disabled specs are skipped. -/
def applyFilters (oracle : LambdaOracle) (stack : List FilterSpec)
    (data : List Record) : List Record :=
  stack.foldl
    (fun items fs => if enabledB fs then applySingle oracle items fs else items)
    data

/-- The per-record predicate realised by one spec: what `_apply_single`
keeps, seen record by record (a compile failure keeps everything). -/
def specPred (oracle : LambdaOracle) (fs : FilterSpec) (item : Record) : Bool :=
  if fs.field = "computed" then
    match oracle fs.condition with
    | none => true
    | some f => computedKeep f fs.filter_type item
  else
    fieldMatchKeep fs.field fs.condition fs.filter_type item

theorem applySingle_eq_filter (oracle : LambdaOracle) (items : List Record)
    (fs : FilterSpec) :
    applySingle oracle items fs = items.filter (specPred oracle fs) := by
  by_cases hf : fs.field = "computed"
  · cases hoc : oracle fs.condition with
    | none =>
      have h1 : items.filter (specPred oracle fs) = items.filter (fun _ => true) :=
        List.filter_congr (fun it _ => by simp [specPred, hf, hoc])
      simp [applySingle, applyComputed, hf, hoc, h1, List.filter_true]
    | some f =>
      have h1 : items.filter (specPred oracle fs)
          = items.filter (computedKeep f fs.filter_type) :=
        List.filter_congr (fun it _ => by simp [specPred, hf, hoc])
      simp [applySingle, applyComputed, hf, hoc, h1]
  · have h1 : items.filter (specPred oracle fs)
        = items.filter (fieldMatchKeep fs.field fs.condition fs.filter_type) :=
      List.filter_congr (fun it _ => by simp [specPred, hf])
    simp [applySingle, applyFieldMatch, hf, h1]

theorem applyFilters_eq_filter (oracle : LambdaOracle) (stack : List FilterSpec)
    (data : List Record) :
    applyFilters oracle stack data
      = data.filter (fun it => stack.all fun fs => !enabledB fs || specPred oracle fs it) := by
  induction stack generalizing data with
  | nil => simp [applyFilters, List.filter_true]
  | cons fs rest ih =>
    have hstep :
        (if enabledB fs then applySingle oracle data fs else data)
          = data.filter (fun it => !enabledB fs || specPred oracle fs it) := by
      cases hen : enabledB fs with
      | true => simp [applySingle_eq_filter]
      | false => simp [List.filter_true]
    have : applyFilters oracle (fs :: rest) data
        = applyFilters oracle rest
            (data.filter (fun it => !enabledB fs || specPred oracle fs it)) := by
      simp only [applyFilters, List.foldl_cons] at *
      rw [hstep]
    rw [this, ih, List.filter_filter]
    apply List.filter_congr
    intro it _
    simp [List.all_cons, Bool.and_comm]

/-! ### Claims C2-C5 -/

/-- A compiled predicate that raises (models a `NameError`/`KeyError`) on
records lacking a numeric `x` field and otherwise tests `x > 0`. -/
def xPositiveFn : Record → Option Bool := fun r =>
  match List.lookup "x" r with
  | some (.numV q) => some (decide (0 < q))
  | _ => none

/-- An eval oracle compiling exactly one lambda text to `xPositiveFn`. -/
def cexOracle : LambdaOracle := fun c =>
  match c with
  | .strV "lambda item: x_value(item) > 0" => some xPositiveFn
  | _ => none

def cexCond : Value := .strV "lambda item: x_value(item) > 0"

def cexItems : List Record := [[("y", Value.numV 1)]]

/-- C2 counterexample: a computed predicate that raises on the single input
record skips it in both the include pass and the exclude pass, so the two
results (both empty) do not partition the one-record input. -/
theorem include_exclude_partition_cex :
    ¬ ((applySingle cexOracle cexItems ⟨"f1", "include", "computed", cexCond, none⟩
        ++ applySingle cexOracle cexItems ⟨"f2", "exclude", "computed", cexCond, none⟩).Perm
        cexItems) := by
  intro hperm
  have h0 : applySingle cexOracle cexItems ⟨"f1", "include", "computed", cexCond, none⟩
      ++ applySingle cexOracle cexItems ⟨"f2", "exclude", "computed", cexCond, none⟩
      = ([] : List Record) := rfl
  rw [h0] at hperm
  have hlen := hperm.length_eq
  simp [cexItems] at hlen

/-- C2 (amended): for a fixed field and condition, the `include` and the
`exclude` result partition the input (as a permutation, so every record
lands in exactly one), provided that a computed condition compiles and its
predicate evaluates without raising on every input record. -/
theorem include_exclude_partition (oracle : LambdaOracle) (items : List Record)
    (fs : FilterSpec) (hinc : fs.filter_type = "include")
    (hcomp : fs.field = "computed" →
      ∃ f, oracle fs.condition = some f ∧ ∀ it ∈ items, (f it).isSome) :
    ((applySingle oracle items fs
      ++ applySingle oracle items { fs with filter_type := "exclude" }).Perm items) := by
  by_cases hf : fs.field = "computed"
  · obtain ⟨f, hoc, htot⟩ := hcomp hf
    have hi : applySingle oracle items fs = items.filter (computedKeep f "include") := by
      simp [applySingle, applyComputed, hf, hoc, hinc]
    have he : applySingle oracle items { fs with filter_type := "exclude" }
        = items.filter (computedKeep f "exclude") := by
      simp [applySingle, applyComputed, hf, hoc]
    rw [hi, he]
    have hcong : items.filter (computedKeep f "exclude")
        = items.filter (fun it => !(computedKeep f "include" it)) := by
      apply List.filter_congr
      intro it hit
      rcases Option.isSome_iff_exists.mp (htot it hit) with ⟨m, hm⟩
      simp [computedKeep, hm]
    rw [hcong]
    exact List.filter_append_perm _ items
  · have hi : applySingle oracle items fs
        = items.filter (fieldMatchKeep fs.field fs.condition "include") := by
      simp [applySingle, applyFieldMatch, hf, hinc]
    have he : applySingle oracle items { fs with filter_type := "exclude" }
        = items.filter (fieldMatchKeep fs.field fs.condition "exclude") := by
      simp [applySingle, applyFieldMatch, hf]
    rw [hi, he]
    have hcong : items.filter (fieldMatchKeep fs.field fs.condition "exclude")
        = items.filter (fun it => !(fieldMatchKeep fs.field fs.condition "include" it)) := by
      apply List.filter_congr
      intro it _
      simp [fieldMatchKeep]
    rw [hcong]
    exact List.filter_append_perm _ items

/-- A compile-failure oracle: `eval` raises on every condition. -/
def wOracle : LambdaOracle := fun _ => none

def wItemC : Record := [("status", Value.strV "completed")]
def wItemP : Record := [("status", Value.strV "pending")]

/-- C2 witness: spec scenarios 1 and 2, a literal `status == "completed"`
include filter and its exclude twin partition the two-record input. -/
theorem include_exclude_partition_witness :
    ((applySingle wOracle [wItemC, wItemP]
        ⟨"s1", "include", "status", .strV "completed", none⟩
      ++ applySingle wOracle [wItemC, wItemP]
        { (⟨"s1", "include", "status", .strV "completed", none⟩ : FilterSpec) with
            filter_type := "exclude" }).Perm [wItemC, wItemP]) :=
  include_exclude_partition wOracle [wItemC, wItemP]
    ⟨"s1", "include", "status", .strV "completed", none⟩ rfl
    (fun h => absurd h (by decide))

/-- C3: a computed FilterSpec whose condition fails to compile leaves the
input collection of `apply` unchanged — same list, hence same length and
same record identities. -/
theorem compile_failure_returns_input (oracle : LambdaOracle) (data : List Record)
    (fs : FilterSpec) (hf : fs.field = "computed")
    (hc : oracle fs.condition = none) :
    applyFilters oracle [fs] data = data := by
  cases hen : enabledB fs with
  | true => simp [applyFilters, applySingle, applyComputed, hf, hc, hen]
  | false => simp [applyFilters, hen]

/-- C3 witness: a broken lambda under the always-raising eval oracle. -/
theorem compile_failure_returns_input_witness :
    applyFilters wOracle [⟨"c1", "include", "computed", .strV "lambda item:", none⟩]
      [wItemC, wItemP] = [wItemC, wItemP] :=
  compile_failure_returns_input wOracle [wItemC, wItemP]
    ⟨"c1", "include", "computed", .strV "lambda item:", none⟩ rfl rfl

/-- C4: with a compiled computed predicate, the records on which evaluation
raises are exactly the ones omitted: the result equals the result on the
input with the raising records removed (all others processed normally), and
no raising record ever reaches the output.  `applyComputed` is a total
function, so no exception propagates to the caller. -/
theorem eval_exception_skips_record (oracle : LambdaOracle) (cond : Value)
    (f : Record → Option Bool) (hc : oracle cond = some f)
    (items : List Record) (ftype : String) :
    applyComputed oracle items cond ftype
      = applyComputed oracle (items.filter fun it => (f it).isSome) cond ftype
    ∧ ∀ it ∈ applyComputed oracle items cond ftype, (f it).isSome := by
  constructor
  · simp only [applyComputed, hc]
    rw [List.filter_filter]
    apply List.filter_congr
    intro it _
    cases hm : f it with
    | none => simp [computedKeep, hm]
    | some m => simp [computedKeep, hm]
  · intro it hit
    simp only [applyComputed, hc] at hit
    have hkeep := (List.mem_filter.mp hit).2
    cases hm : f it with
    | none => simp [computedKeep, hm] at hkeep
    | some m => simp [hm]

def wFive : List Record :=
  [[("x", Value.numV 3)], [("x", Value.numV (-1))], [("y", Value.numV 7)],
   [("x", Value.numV 2)], [("x", Value.numV 5)]]

/-- C4 witness: spec scenario 6, five records of which one (the `y`-only
record) makes the predicate raise; the result equals the run on the other
four records. -/
theorem eval_exception_skips_record_witness :
    applyComputed cexOracle wFive cexCond "include"
      = applyComputed cexOracle (wFive.filter fun it => (xPositiveFn it).isSome)
          cexCond "include" :=
  (eval_exception_skips_record cexOracle cexCond xPositiveFn rfl wFive "include").1

/-- C5: for per-record predicates (every predicate an eval oracle can
produce depends only on the record it is applied to), `apply` is invariant
under permutation of the filter stack, and its result is the input filtered
by the conjunction of the enabled filters' individual predicates — the
intersection of their individually-accepted record sets. -/
theorem apply_order_invariant_intersection (oracle : LambdaOracle)
    (data : List Record) (s1 s2 : List FilterSpec) (hperm : s1.Perm s2) :
    applyFilters oracle s1 data = applyFilters oracle s2 data
    ∧ applyFilters oracle s1 data
        = data.filter (fun it => s1.all fun fs => !enabledB fs || specPred oracle fs it) := by
  refine ⟨?_, applyFilters_eq_filter oracle s1 data⟩
  rw [applyFilters_eq_filter, applyFilters_eq_filter]
  apply List.filter_congr
  intro it _
  rw [← Bool.coe_iff_coe]
  simp only [List.all_eq_true]
  exact ⟨fun h fs hm => h fs (hperm.mem_iff.mpr hm),
         fun h fs hm => h fs (hperm.mem_iff.mp hm)⟩

def wSpecA : FilterSpec := ⟨"a", "include", "status", .strV "completed", none⟩

def wSpecB : FilterSpec := ⟨"b", "exclude", "priority", .numV 2, none⟩

/-- C5 witness: two literal filters applied in either order give the same
result, equal to the conjunction filter. -/
theorem apply_order_invariant_intersection_witness :
    applyFilters wOracle [wSpecA, wSpecB] [wItemC, wItemP]
      = applyFilters wOracle [wSpecB, wSpecA] [wItemC, wItemP]
    ∧ applyFilters wOracle [wSpecA, wSpecB] [wItemC, wItemP]
        = [wItemC, wItemP].filter
            (fun it => [wSpecA, wSpecB].all fun fs => !enabledB fs || specPred wOracle fs it) :=
  apply_order_invariant_intersection wOracle [wItemC, wItemP] [wSpecA, wSpecB]
    [wSpecB, wSpecA] (List.Perm.swap wSpecB wSpecA [])

/-! ## HierarchicalFilterEngine.enrich (`hierarchical_filter_engine.py`)

`enrich` mutates the entity list in place and returns the same list; the
embedding passes the list explicitly and returns the updated one.  A result
of `none` models the Python loop raising and aborting the whole call
(a `TypeError` from a child collection that is not a list of dicts, or from
aggregating non-numeric values); the claims only concern runs that
complete. -/

/-- One aggregate specification `{'name', 'source_field', 'fn'}`. -/
structure AggSpec where
  name : String
  source_field : String
  fn : String

/-- Interpret a value as the child array: it must be a list of dicts for
the `src in c` / `c[src]` accesses of the comprehension to succeed. -/
def asRecords : Value → Option (List Record)
  | .listV l => l.mapM fun e => match e with | .dictV d => some d | _ => none
  | _ => none

/-- `children = entity.get(child_field) or []`. -/
def childrenOf (ent : Record) (cf : String) : Option (List Record) :=
  let cv := match List.lookup cf ent with
    | some v => if pyTruthy v then v else .listV []
    | none => .listV []
  asRecords cv

/-- `[c[src] for c in children if src in c and c[src] is not None]`. -/
def gatherValues (children : List Record) (src : String) : List Value :=
  children.filterMap fun c =>
    match List.lookup src c with
    | some v => match v with | .null => none | _ => some v
    | none => none

/-- A value as a Python number: ints and floats, plus bools (which Python
treats as the ints 0 and 1 in arithmetic and comparisons). -/
def pyNum? : Value → Option ℚ
  | .numV q => some q
  | .boolV b => some (boolNum b)
  | _ => none

/-- Python `max` over a nonempty list, seeded with its first element. -/
def listMax (q : ℚ) (rest : List ℚ) : ℚ := rest.foldl max q

/-- Python `min` over a nonempty list. -/
def listMin (q : ℚ) (rest : List ℚ) : ℚ := rest.foldl min q

/-- Python `sum`: left fold of addition starting from 0. -/
def listSum (l : List ℚ) : ℚ := l.foldl (· + ·) 0

/-- The `if/elif` chain of `enrich`'s inner loop: `count` first (so it is
the filtered length even when that is 0), then the empty check giving
`None`, then the per-function branches; an unrecognized `fn` falls through
to `None`.  Aggregating a non-numeric value models the `TypeError` Python
`max`/`min`/`sum` would raise, as `none`. -/
def aggValue (fn : String) (values : List Value) : Option Value :=
  if fn = "count" then some (.numV values.length)
  else
    match values with
    | [] => some .null
    | v0 :: vs =>
      if fn = "max" then
        match (v0 :: vs).mapM pyNum? with
        | some (q :: qs) => some (.numV (listMax q qs))
        | _ => none
      else if fn = "min" then
        match (v0 :: vs).mapM pyNum? with
        | some (q :: qs) => some (.numV (listMin q qs))
        | _ => none
      else if fn = "sum" then
        ((v0 :: vs).mapM pyNum?).map fun qs => .numV (listSum qs)
      else if fn = "mean" then
        ((v0 :: vs).mapM pyNum?).map fun qs =>
          .numV (listSum qs / ((v0 :: vs).length : ℚ))
      else if fn = "first" then some v0
      else if fn = "last" then some ((v0 :: vs).getLastD v0)
      else some .null

/-- The `for spec in agg_specs` loop over one entity: compute each
aggregate from the (fixed) child list and write it under `spec['name']`. -/
def enrichLoop (children : List Record) : List AggSpec → Record → Option Record
  | [], ent => some ent
  | s :: rest, ent =>
    match aggValue s.fn (gatherValues children s.source_field) with
    | none => none
    | some v => enrichLoop children rest (dictSet ent s.name v)

/-- The body of `enrich`'s outer loop for one entity. -/
def enrichEntity (cf : String) (specs : List AggSpec) (ent : Record) : Option Record :=
  match childrenOf ent cf with
  | none => none
  | some children => enrichLoop children specs ent

/-- `HierarchicalFilterEngine.enrich`. -/
def enrich (entities : List Record) (cf : String) (specs : List AggSpec) :
    Option (List Record) :=
  match entities with
  | [] => some []
  | ent :: rest =>
    match enrichEntity cf specs ent, enrich rest cf specs with
    | some r, some rs => some (r :: rs)
    | _, _ => none

/-! ### Claims C6-C7 -/

/-- Reference definition following the wording of spec §4.4: aggregates are
computed over the filtered (present, non-null) value list; `count` is that
list's length; `max`/`min`/`sum`/`mean` are `null` when the filtered list is
empty (mean never divides by zero) and otherwise the corresponding function
over it; `first`/`last` take its first/last element (`null` if empty);
unrecognized functions yield `null`. -/
def specAggregate (fn : String) (values : List Value) : Option Value :=
  if fn = "count" then some (.numV values.length)
  else if fn = "max" ∨ fn = "min" ∨ fn = "sum" ∨ fn = "mean" then
    match values, values.mapM pyNum? with
    | [], _ => some .null
    | _ :: _, none => none
    | _ :: _, some [] => none
    | _ :: _, some (q :: qs) =>
      if fn = "max" then some (.numV (listMax q qs))
      else if fn = "min" then some (.numV (listMin q qs))
      else if fn = "sum" then some (.numV (listSum (q :: qs)))
      else some (.numV (listSum (q :: qs) / (((q :: qs).length : ℕ) : ℚ)))
  else if fn = "first" ∨ fn = "last" then
    match values with
    | [] => some .null
    | v0 :: vs => if fn = "first" then some v0 else some ((v0 :: vs).getLastD v0)
  else some .null

theorem length_of_mapM_pyNum (l : List Value) (qs : List ℚ)
    (h : l.mapM pyNum? = some qs) : qs.length = l.length := by
  induction l generalizing qs with
  | nil =>
    simp only [List.mapM_nil, pure, Option.some.injEq] at h
    subst h
    rfl
  | cons a t ih =>
    rw [List.mapM_cons] at h
    cases ha : pyNum? a with
    | none => rw [ha] at h; simp at h
    | some q =>
      rw [ha] at h
      cases ht : t.mapM pyNum? with
      | none => rw [ht] at h; simp at h
      | some ts =>
        rw [ht] at h
        simp at h
        have hqs : qs = q :: ts := h.symm
        subst hqs
        simp [ih ts ht]

theorem aggValue_eq_spec (fn : String) (values : List Value) (qs : List ℚ)
    (hq : values.mapM pyNum? = some qs)
    (hfn : fn = "count" ∨ fn = "max" ∨ fn = "min" ∨ fn = "sum" ∨ fn = "mean") :
    aggValue fn values = specAggregate fn values ∧ (aggValue fn values).isSome := by
  have hlen := length_of_mapM_pyNum values qs hq
  rcases hfn with rfl | rfl | rfl | rfl | rfl
  · simp [aggValue, specAggregate]
  · cases values with
    | nil => simp [aggValue, specAggregate]
    | cons v0 vs =>
      cases qs with
      | nil => simp at hlen
      | cons q qrest =>
        have hq' : List.mapM.loop pyNum? (v0 :: vs) [] = some (q :: qrest) := hq
        simp [aggValue, specAggregate, hq']
  · cases values with
    | nil => simp [aggValue, specAggregate]
    | cons v0 vs =>
      cases qs with
      | nil => simp at hlen
      | cons q qrest =>
        have hq' : List.mapM.loop pyNum? (v0 :: vs) [] = some (q :: qrest) := hq
        simp [aggValue, specAggregate, hq']
  · cases values with
    | nil => simp [aggValue, specAggregate]
    | cons v0 vs =>
      cases qs with
      | nil => simp at hlen
      | cons q qrest =>
        have hq' : List.mapM.loop pyNum? (v0 :: vs) [] = some (q :: qrest) := hq
        simp [aggValue, specAggregate, hq']
  · cases values with
    | nil => simp [aggValue, specAggregate]
    | cons v0 vs =>
      cases qs with
      | nil => simp at hlen
      | cons q qrest =>
        have hq' : List.mapM.loop pyNum? (v0 :: vs) [] = some (q :: qrest) := hq
        have hl2 : qrest.length = vs.length := by simpa using hlen
        simp [aggValue, specAggregate, hq', hl2]

/-- C6: on a well-formed entity (child collection a list of dicts) whose
gathered source-field values are numeric, `enrich` with one AggregateSpec
among count/max/min/sum/mean writes under the spec's name exactly the
aggregate described by the spec: the filtered value list excludes absent
and null child fields, `count` is its length (0 when no child qualifies),
and the other functions are computed over it, `null` when it is empty. -/
theorem enrich_writes_described_aggregate (ent : Record) (cf : String) (s : AggSpec)
    (children : List Record) (qs : List ℚ)
    (hch : childrenOf ent cf = some children)
    (hq : (gatherValues children s.source_field).mapM pyNum? = some qs)
    (hfn : s.fn = "count" ∨ s.fn = "max" ∨ s.fn = "min" ∨ s.fn = "sum" ∨ s.fn = "mean") :
    ∃ agg, specAggregate s.fn (gatherValues children s.source_field) = some agg
      ∧ enrich [ent] cf [s] = some [dictSet ent s.name agg]
      ∧ List.lookup s.name (dictSet ent s.name agg) = some agg := by
  obtain ⟨heq, hsome⟩ := aggValue_eq_spec s.fn _ qs hq hfn
  obtain ⟨agg, hagg⟩ := Option.isSome_iff_exists.mp hsome
  refine ⟨agg, ?_, ?_, lookup_dictSet_self ent s.name agg⟩
  · rw [← heq]
    exact hagg
  · simp [enrich, enrichEntity, enrichLoop, hch, hagg]

/-- Spec scenario 3's first entity. -/
def wEnt1 : Record :=
  [("id", .numV 1),
   ("data", .listV [.dictV [("V", .numV 10)], .dictV [("V", .numV 20)]])]

/-- C6 witness: spec scenario 3 — `{'name': 'max_v', 'source_field': 'V',
'fn': 'max'}` over children with V = 10 and V = 20. -/
theorem enrich_writes_described_aggregate_witness :
    ∃ agg, specAggregate "max" (gatherValues [[("V", .numV 10)], [("V", .numV 20)]] "V")
        = some agg
      ∧ enrich [wEnt1] "data" [⟨"max_v", "V", "max"⟩] = some [dictSet wEnt1 "max_v" agg]
      ∧ List.lookup "max_v" (dictSet wEnt1 "max_v" agg) = some agg :=
  enrich_writes_described_aggregate wEnt1 "data" ⟨"max_v", "V", "max"⟩
    [[("V", .numV 10)], [("V", .numV 20)]] [10, 20] rfl rfl
    (Or.inr (Or.inl rfl))

theorem enrichLoop_lookup_of_not_name (children : List Record) (specs : List AggSpec)
    (ent r : Record) (key : String) (h : enrichLoop children specs ent = some r)
    (hk : ∀ s ∈ specs, s.name ≠ key) :
    List.lookup key r = List.lookup key ent := by
  induction specs generalizing ent with
  | nil =>
    simp only [enrichLoop, Option.some.injEq] at h
    subst h
    rfl
  | cons s rest ih =>
    rw [enrichLoop] at h
    cases hv : aggValue s.fn (gatherValues children s.source_field) with
    | none => rw [hv] at h; exact absurd h (by simp)
    | some v =>
      rw [hv] at h
      have hrec := ih (dictSet ent s.name v) h (fun t ht => hk t (List.mem_cons_of_mem s ht))
      rw [hrec, lookup_dictSet_ne]
      exact fun hkey => hk s (List.mem_cons_self s rest) hkey.symm

theorem enrichLoop_total (children : List Record) (specs : List AggSpec)
    (ent r : Record) (h : enrichLoop children specs ent = some r) :
    ∀ ent', ∃ r', enrichLoop children specs ent' = some r' := by
  induction specs generalizing ent with
  | nil => exact fun ent' => ⟨ent', rfl⟩
  | cons s rest ih =>
    intro ent'
    rw [enrichLoop] at h
    cases hv : aggValue s.fn (gatherValues children s.source_field) with
    | none => rw [hv] at h; exact absurd h (by simp)
    | some v =>
      rw [hv] at h
      obtain ⟨r', hr'⟩ := ih (dictSet ent s.name v) h (dictSet ent' s.name v)
      exact ⟨r', by rw [enrichLoop, hv]; exact hr'⟩

theorem enrichLoop_lookup_agree (children : List Record) (specs : List AggSpec) :
    ∀ ent ent' r r', enrichLoop children specs ent = some r →
      enrichLoop children specs ent' = some r' →
      ∀ s ∈ specs, List.lookup s.name r = List.lookup s.name r' := by
  induction specs with
  | nil => intro _ _ _ _ _ _ s hs; exact absurd hs (by simp)
  | cons s0 rest ih =>
    intro ent ent' r r' h h' s hs
    rw [enrichLoop] at h h'
    cases hv : aggValue s0.fn (gatherValues children s0.source_field) with
    | none => rw [hv] at h; exact absurd h (by simp)
    | some v =>
      rw [hv] at h h'
      rcases List.mem_cons.mp hs with rfl | hmem
      · by_cases hname : ∃ t ∈ rest, t.name = s.name
        · obtain ⟨t, ht, hteq⟩ := hname
          have := ih _ _ _ _ h h' t ht
          rw [← hteq]
          exact this
        · push_neg at hname
          have h1 := enrichLoop_lookup_of_not_name children rest _ _ s.name h hname
          have h2 := enrichLoop_lookup_of_not_name children rest _ _ s.name h' hname
          rw [h1, h2, lookup_dictSet_self, lookup_dictSet_self]
      · exact ih _ _ _ _ h h' s hmem

theorem childrenOf_enrichLoop (children : List Record) (specs : List AggSpec)
    (ent r : Record) (cf : String) (h : enrichLoop children specs ent = some r)
    (hcf : ∀ s ∈ specs, s.name ≠ cf) :
    childrenOf r cf = childrenOf ent cf := by
  unfold childrenOf
  rw [enrichLoop_lookup_of_not_name children specs ent r cf h hcf]

/-- An entity whose child array sits under a key that an AggregateSpec
also uses as its aggregate name. -/
def brokenEnt : Record := [("data", .listV [.dictV [("V", .numV 1)]])]

/-- C7 counterexample: when an AggregateSpec's name equals the child field,
the first `enrich` run overwrites the child array with the aggregate
(`data` becomes the number 1); the second run then finds a number where it
expects the child list and raises a `TypeError` (modelled as `none`), so
two successive runs do not produce identical aggregate values. -/
theorem enrich_idempotent_cex :
    enrich [brokenEnt] "data" [⟨"data", "V", "max"⟩] = some [[("data", Value.numV 1)]]
    ∧ enrich [[("data", Value.numV 1)]] "data" [⟨"data", "V", "max"⟩] = none := by
  constructor <;> rfl

/-- C7 (amended): calling `enrich` twice in succession with the same specs
on an unmodified entity collection produces identical aggregate field
values both times, provided no spec's aggregate name equals the child
field (otherwise the first run destroys the child arrays).  The second run
succeeds, yields a collection of the same shape, and every aggregate-named
field carries the same value as after the first run, because each run
unconditionally overwrites the aggregate-named fields. -/
theorem enrich_idempotent (entities : List Record) (cf : String) (specs : List AggSpec)
    (hn : ∀ s ∈ specs, s.name ≠ cf) (es : List Record)
    (h1 : enrich entities cf specs = some es) :
    ∃ es2, enrich es cf specs = some es2
      ∧ List.Forall₂
          (fun e2 e => ∀ s ∈ specs, List.lookup s.name e2 = List.lookup s.name e)
          es2 es := by
  induction entities generalizing es with
  | nil =>
    simp only [enrich, Option.some.injEq] at h1
    subst h1
    exact ⟨[], rfl, List.Forall₂.nil⟩
  | cons ent rest ih =>
    rw [enrich] at h1
    cases hent : enrichEntity cf specs ent with
    | none => rw [hent] at h1; exact absurd h1 (by simp)
    | some r =>
      rw [hent] at h1
      cases hrest : enrich rest cf specs with
      | none => rw [hrest] at h1; exact absurd h1 (by simp)
      | some rs =>
        rw [hrest] at h1
        simp only [Option.some.injEq] at h1
        subst h1
        rw [enrichEntity] at hent
        cases hch : childrenOf ent cf with
        | none => rw [hch] at hent; exact absurd hent (by simp)
        | some ch =>
          rw [hch] at hent
          have hch2 : childrenOf r cf = some ch := by
            rw [childrenOf_enrichLoop ch specs ent r cf hent hn, hch]
          obtain ⟨r2, hr2⟩ := enrichLoop_total ch specs ent r hent r
          obtain ⟨rs2, hrs2, hfa⟩ := ih rs hrest
          refine ⟨r2 :: rs2, ?_, ?_⟩
          · rw [enrich]
            have : enrichEntity cf specs r = some r2 := by
              rw [enrichEntity, hch2]
              exact hr2
            rw [this, hrs2]
          · exact List.Forall₂.cons
              (enrichLoop_lookup_agree ch specs r ent r2 r hr2 hent) hfa

/-- C7 witness: two runs over spec scenario 3's entity with the `max_v`
aggregate agree. -/
theorem enrich_idempotent_witness :
    ∃ es2, enrich [dictSet wEnt1 "max_v" (.numV 20)] "data" [⟨"max_v", "V", "max"⟩] = some es2
      ∧ List.Forall₂
          (fun e2 e => ∀ s ∈ [(⟨"max_v", "V", "max"⟩ : AggSpec)],
            List.lookup s.name e2 = List.lookup s.name e)
          es2 [dictSet wEnt1 "max_v" (.numV 20)] :=
  enrich_idempotent [wEnt1] "data" [⟨"max_v", "V", "max"⟩]
    (fun s hs => by
      rcases List.mem_singleton.mp hs with rfl
      decide)
    [dictSet wEnt1 "max_v" (.numV 20)] rfl

/-! ## QueryEngine validation (`query_engine.py`)

`validate_query` screens the raw code text against `BLOCKED_SUBSTRINGS`,
then parses it with `ast.parse` and walks the tree (`ast.walk`, breadth
first), rejecting import statements, function and class definitions, and
calls whose callee is a bare deny-listed name.  Python's parser belongs to
the runtime, not the repository, so the parse step is an input of the
embedding: an `Except` carrying either the syntax-error text or the parsed
tree.  The source keeps the blocked tokens in sets with unspecified
iteration order; the embedding fixes the literal order of the source. -/

/-- The Python AST node shapes relevant to `validate_query`: the node kinds
its loop tests for, plus the ordinary containers expressions are built
from. -/
inductive PyAst where
  | module (body : List PyAst)
  | importStmt (names : List String)
  | importFrom (moduleName : String) (names : List String)
  | functionDef (declName : String) (body : List PyAst)
  | classDef (declName : String) (body : List PyAst)
  | assign (target : String) (value : PyAst)
  | exprStmt (value : PyAst)
  | call (func : PyAst) (args : List PyAst)
  | attrAccess (value : PyAst) (attr : String)
  | name (id : String)
  | constant
  | binOp (left : PyAst) (right : PyAst)
  | subscript (value : PyAst) (index : PyAst)

/-- The direct children of a node, as `ast.iter_child_nodes` yields them. -/
def pyChildren : PyAst → List PyAst
  | .module body => body
  | .importStmt _ => []
  | .importFrom _ _ => []
  | .functionDef _ body => body
  | .classDef _ body => body
  | .assign _ v => [v]
  | .exprStmt v => [v]
  | .call f args => f :: args
  | .attrAccess v _ => [v]
  | .name _ => []
  | .constant => []
  | .binOp a b => [a, b]
  | .subscript v i => [v, i]

mutual

def astSize : PyAst → Nat
  | .module body => 1 + astSizeList body
  | .importStmt _ => 1
  | .importFrom _ _ => 1
  | .functionDef _ body => 1 + astSizeList body
  | .classDef _ body => 1 + astSizeList body
  | .assign _ v => 1 + astSize v
  | .exprStmt v => 1 + astSize v
  | .call f args => 1 + astSize f + astSizeList args
  | .attrAccess v _ => 1 + astSize v
  | .name _ => 1
  | .constant => 1
  | .binOp a b => 1 + astSize a + astSize b
  | .subscript v i => 1 + astSize v + astSize i

def astSizeList : List PyAst → Nat
  | [] => 0
  | a :: t => astSize a + astSizeList t

end

theorem astSizeList_append (a b : List PyAst) :
    astSizeList (a ++ b) = astSizeList a + astSizeList b := by
  induction a with
  | nil => simp [astSizeList]
  | cons x t ih => simp [astSizeList, ih]; omega


theorem astSize_pos (n : PyAst) : 1 ≤ astSize n := by
  cases n <;> simp [astSize] <;> omega

theorem astSizeList_children_lt (n : PyAst) :
    astSizeList (pyChildren n) < astSize n := by
  cases n <;> simp [pyChildren, astSize, astSizeList] <;> omega

theorem walk_step_lt (n : PyAst) (rest : List PyAst) :
    astSizeList (rest ++ pyChildren n) < astSizeList (n :: rest) := by
  rw [astSizeList_append]
  have h1 := astSizeList_children_lt n
  simp only [astSizeList]
  omega

/-- `BLOCKED_SUBSTRINGS`: long, unambiguous tokens checked on the
lower-cased code text. -/
def BLOCKED_SUBSTRINGS : List String :=
  ["__import__", "__builtins__", "__class__", "__dict__", "__code__",
   "subprocess", "importlib", "execfile", "raw_input"]

/-- `BLOCKED_CALLS`: identifiers rejected when called as bare names.
(`BLOCKED_OPERATIONS`, their union, is kept by the source only for external
callers and is never read by validation.) -/
def BLOCKED_CALLS : List String :=
  ["eval", "exec", "__import__", "open", "compile", "globals", "locals",
   "vars", "dir", "getattr", "setattr", "delattr", "hasattr", "callable",
   "os", "sys", "subprocess", "importlib", "pickle", "shelve",
   "input", "raw_input", "file", "execfile"]

/-- A raised Python exception: its class and its message.  The module
defines the single class `QueryValidationError(Exception)`; every raise
site of `validate_query` uses it. -/
structure PyExn where
  cls : String
  msg : String
deriving DecidableEq

/-- Whether `validate_query`'s AST loop raises at this node, and with
which exception. -/
def nodeViolation : PyAst → Option PyExn
  | .importStmt _ =>
    some ⟨"QueryValidationError", "Import statements are not allowed"⟩
  | .importFrom _ _ =>
    some ⟨"QueryValidationError", "Import statements are not allowed"⟩
  | .functionDef _ _ =>
    some ⟨"QueryValidationError", "Function definitions are not allowed"⟩
  | .classDef _ _ =>
    some ⟨"QueryValidationError", "Class definitions are not allowed"⟩
  | .call f _ =>
    match f with
    | .name fid =>
      if fid ∈ BLOCKED_CALLS then
        some ⟨"QueryValidationError", "Blocked function call: " ++ fid⟩
      else none
    | _ => none
  | _ => none

/-- `for node in ast.walk(tree)`: breadth-first queue traversal, raising at
the first violating node; `return True` when the walk finishes. -/
def walkQueue : List PyAst → Except PyExn Bool
  | [] => .ok true
  | n :: rest =>
    match nodeViolation n with
    | some e => .error e
    | none => walkQueue (rest ++ pyChildren n)
termination_by q => astSizeList q
decreasing_by
  exact walk_step_lt _ _

mutual

/-- No node of the subtree violates the AST screen. -/
def astClean : PyAst → Bool
  | .module body => astCleanList body
  | .importStmt _ => false
  | .importFrom _ _ => false
  | .functionDef _ _ => false
  | .classDef _ _ => false
  | .assign _ v => astClean v
  | .exprStmt v => astClean v
  | .call f args =>
    (match f with
     | .name fid => !(decide (fid ∈ BLOCKED_CALLS))
     | _ => true) && (astClean f && astCleanList args)
  | .attrAccess v _ => astClean v
  | .name _ => true
  | .constant => true
  | .binOp a b => astClean a && astClean b
  | .subscript v i => astClean v && astClean i

def astCleanList : List PyAst → Bool
  | [] => true
  | a :: t => astClean a && astCleanList t

end

theorem astCleanList_eq (l : List PyAst) : astCleanList l = l.all astClean := by
  induction l with
  | nil => simp [astCleanList]
  | cons a t ih => simp [astCleanList, ih]

theorem astClean_eq (n : PyAst) :
    astClean n = ((nodeViolation n).isNone && astCleanList (pyChildren n)) := by
  cases n with
  | call f args =>
    cases f with
    | name fid =>
      by_cases hb : fid ∈ BLOCKED_CALLS <;>
        simp [astClean, nodeViolation, pyChildren, astCleanList, hb]
    | _ => simp [astClean, nodeViolation, pyChildren, astCleanList]
  | _ => simp [astClean, nodeViolation, pyChildren, astCleanList]

theorem walkQueue_ok_iff (q : List PyAst) :
    walkQueue q = .ok true ↔ ∀ n ∈ q, astClean n = true := by
  match q with
  | [] => simp [walkQueue]
  | n :: rest =>
    rw [walkQueue]
    cases hv : nodeViolation n with
    | some e =>
      constructor
      · intro h; exact absurd h (by simp)
      · intro h
        have hn := h n (List.mem_cons_self n rest)
        rw [astClean_eq, hv] at hn
        simp at hn
    | none =>
      have ih := walkQueue_ok_iff (rest ++ pyChildren n)
      rw [ih]
      constructor
      · intro h m hm
        rcases List.mem_cons.mp hm with rfl | hmem
        · rw [astClean_eq, hv, astCleanList_eq]
          simp only [Option.isNone_none, Bool.true_and]
          rw [List.all_eq_true]
          intro c hc
          exact h c (List.mem_append_right rest hc)
        · exact h m (List.mem_append_left _ hmem)
      · intro h m hm
        rcases List.mem_append.mp hm with hmem | hc
        · exact h m (List.mem_cons_of_mem n hmem)
        · have hn := h n (List.mem_cons_self n rest)
          rw [astClean_eq, hv, astCleanList_eq] at hn
          simp only [Option.isNone_none, Bool.true_and, List.all_eq_true] at hn
          exact hn m hc
termination_by astSizeList q
decreasing_by
  exact walk_step_lt _ _

/-- `Subnode t n`: node `n` occurs in the tree rooted at `t` (so `ast.walk`
visits it). -/
inductive Subnode : PyAst → PyAst → Prop where
  | refl (t : PyAst) : Subnode t t
  | child {t c n : PyAst} : c ∈ pyChildren t → Subnode c n → Subnode t n

theorem walkQueue_error_src (q : List PyAst) (e : PyExn)
    (h : walkQueue q = .error e) :
    ∃ m n, m ∈ q ∧ Subnode m n ∧ nodeViolation n = some e := by
  match q with
  | [] => rw [walkQueue] at h; exact absurd h (by simp)
  | n :: rest =>
    rw [walkQueue] at h
    cases hv : nodeViolation n with
    | some e' =>
      rw [hv] at h
      simp only [Except.error.injEq] at h
      subst h
      exact ⟨n, n, List.mem_cons_self n rest, Subnode.refl n, hv⟩
    | none =>
      rw [hv] at h
      obtain ⟨m, nn, hm, hsub, hviol⟩ := walkQueue_error_src (rest ++ pyChildren n) e h
      rcases List.mem_append.mp hm with hmem | hc
      · exact ⟨m, nn, List.mem_cons_of_mem n hmem, hsub, hviol⟩
      · exact ⟨n, nn, List.mem_cons_self n rest, Subnode.child hc hsub, hviol⟩
termination_by astSizeList q
decreasing_by
  exact walk_step_lt _ _

theorem nodeViolation_cls (n : PyAst) (e : PyExn)
    (h : nodeViolation n = some e) : e.cls = "QueryValidationError" := by
  obtain ⟨ec, em⟩ := e
  cases n <;> try (simp [nodeViolation] at h)
  case importStmt _ => exact h.1.symm
  case importFrom _ _ => exact h.1.symm
  case functionDef _ _ => exact h.1.symm
  case classDef _ _ => exact h.1.symm
  case call f args =>
    cases f <;> simp [nodeViolation] at h
    case name fid => exact h.2.1.symm

/-- `str.lower()`, via the character list (the core `String.toLower` is
defined by well-founded recursion and does not reduce in the kernel). -/
def strLower (s : String) : String := ⟨s.data.map Char.toLower⟩

/-- Python `tok in text` on strings, via the character lists. -/
def charsHasSub (needle : List Char) : List Char → Bool
  | [] => needle.isEmpty
  | c :: t => needle.isPrefixOf (c :: t) || charsHasSub needle t

/-- `blocked in query_lower`: substring containment. -/
def strContains (s sub : String) : Bool := charsHasSub sub.data s.data

/-- The substring screen passes: no blocked token occurs in the lower-cased
code text. -/
def substringsOk (code : String) : Bool :=
  BLOCKED_SUBSTRINGS.all fun tok => !(strContains (strLower code) tok)

/-- `validate_query(query_code)`, with the `ast.parse` outcome supplied as
the second argument: the empty-string guard, the substring screen over the
lower-cased text, the parse step, then the breadth-first AST walk. -/
def validate_query (code : String) (pr : Except String PyAst) : Except PyExn Bool :=
  if code = "" then
    .error ⟨"QueryValidationError", "Query code must be a non-empty string"⟩
  else
    match BLOCKED_SUBSTRINGS.find? (fun tok => strContains (strLower code) tok) with
    | some tok => .error ⟨"QueryValidationError", "Blocked operation: " ++ tok⟩
    | none =>
      match pr with
      | .error m => .error ⟨"QueryValidationError", "Invalid Python syntax: " ++ m⟩
      | .ok tree => walkQueue [tree]

/-! ### Claim C1 -/

/-- C1 counterexample: the empty string contains no blocked substring, it
parses (to an empty module) and its AST has no forbidden construct, yet
`validate_query` rejects it — so not every string triggering none of the
listed conditions is accepted.  Its error also shows the single exception
class the module defines: every rejection, including a parse failure, is a
plain `QueryValidationError`; there is no distinct `SyntaxError` subtype. -/
theorem validate_query_cex :
    substringsOk "" = true
    ∧ astClean (.module []) = true
    ∧ validate_query "" (.ok (.module []))
        = .error ⟨"QueryValidationError", "Query code must be a non-empty string"⟩ :=
  ⟨by decide, by decide, rfl⟩

/-- C1 (amended): for every non-empty code string, validation succeeds iff
the lower-cased text contains no blocked substring, the code parses, and
the tree contains no import statement, named function definition, class
definition, or call of a deny-listed bare name.  Every rejection carries
the one exception class `QueryValidationError`; a blocked substring is
reported as `Blocked operation: <token>` with a token actually present; a
parse failure past the substring screen as `Invalid Python syntax: <detail>`
(distinguished by message, not by a distinct subtype); and an AST rejection
carries the violation of a node present in the tree. -/
theorem validate_query_characterization (code : String) (pr : Except String PyAst)
    (hne : code ≠ "") :
    (validate_query code pr = .ok true ↔
        substringsOk code = true ∧ ∃ t, pr = .ok t ∧ astClean t = true)
    ∧ (∀ e, validate_query code pr = .error e → e.cls = "QueryValidationError")
    ∧ (substringsOk code = false →
        ∃ tok, tok ∈ BLOCKED_SUBSTRINGS ∧ strContains (strLower code) tok = true
          ∧ validate_query code pr
              = .error ⟨"QueryValidationError", "Blocked operation: " ++ tok⟩)
    ∧ (∀ m, substringsOk code = true → pr = .error m →
        validate_query code pr
          = .error ⟨"QueryValidationError", "Invalid Python syntax: " ++ m⟩)
    ∧ (∀ t e, pr = .ok t → substringsOk code = true →
        validate_query code pr = .error e →
        ∃ n, Subnode t n ∧ nodeViolation n = some e) := by
  have hsub : substringsOk code = true ↔
      BLOCKED_SUBSTRINGS.find? (fun tok => strContains (strLower code) tok) = none := by
    rw [substringsOk, List.all_eq_true, List.find?_eq_none]
    constructor
    · intro h tok htok
      have h2 := h tok htok
      simp only [Bool.not_eq_true'] at h2
      simp [h2]
    · intro h tok htok
      have h2 := h tok htok
      simp only [Bool.not_eq_true] at h2
      simp [h2]
  cases hf : BLOCKED_SUBSTRINGS.find? (fun tok => strContains (strLower code) tok) with
  | some tok =>
    have hv : validate_query code pr
        = .error ⟨"QueryValidationError", "Blocked operation: " ++ tok⟩ := by
      rw [validate_query.eq_def, if_neg hne, hf]
    have hso : substringsOk code = false := by
      cases hs : substringsOk code
      · rfl
      · have h2 := hsub.mp hs
        rw [hf] at h2
        simp at h2
    refine ⟨?_, ?_, ?_, ?_, ?_⟩
    · constructor
      · intro h
        rw [hv] at h
        exact absurd h (by simp)
      · rintro ⟨h1, -⟩
        rw [hso] at h1
        exact absurd h1 (by simp)
    · intro e he
      rw [hv] at he
      simp only [Except.error.injEq] at he
      rw [← he]
    · intro _
      refine ⟨tok, List.mem_of_find?_eq_some hf, ?_, hv⟩
      simpa using List.find?_some hf
    · intro m hst _
      rw [hso] at hst
      exact absurd hst (by simp)
    · intro t e _ hst _
      rw [hso] at hst
      exact absurd hst (by simp)
  | none =>
    have hst : substringsOk code = true := hsub.mpr hf
    cases pr with
    | error m =>
      have hv : validate_query code (.error m)
          = .error ⟨"QueryValidationError", "Invalid Python syntax: " ++ m⟩ := by
        rw [validate_query.eq_def, if_neg hne, hf]
      refine ⟨?_, ?_, ?_, ?_, ?_⟩
      · constructor
        · intro h
          rw [hv] at h
          exact absurd h (by simp)
        · rintro ⟨-, t, ht, -⟩
          exact absurd ht (by simp)
      · intro e he
        rw [hv] at he
        simp only [Except.error.injEq] at he
        rw [← he]
      · intro hfalse
        rw [hfalse] at hst
        exact absurd hst (by simp)
      · intro m' _ hm'
        simp only [Except.error.injEq] at hm'
        subst hm'
        exact hv
      · intro t e ht _ _
        exact absurd ht (by simp)
    | ok tree =>
      have hv : validate_query code (.ok tree) = walkQueue [tree] := by
        rw [validate_query.eq_def, if_neg hne, hf]
      refine ⟨?_, ?_, ?_, ?_, ?_⟩
      · rw [hv, walkQueue_ok_iff]
        constructor
        · intro h
          exact ⟨hst, tree, rfl, h tree (List.mem_singleton.mpr rfl)⟩
        · rintro ⟨-, t, ht, hcl⟩
          injection ht with ht
          subst ht
          intro n hn
          have hn2 := List.mem_singleton.mp hn
          subst hn2
          exact hcl
      · intro e he
        rw [hv] at he
        obtain ⟨m', n, -, -, hviol⟩ := walkQueue_error_src [tree] e he
        exact nodeViolation_cls n e hviol
      · intro hfalse
        rw [hfalse] at hst
        exact absurd hst (by simp)
      · intro m _ hm
        exact absurd hm (by simp)
      · intro t e ht _ he
        injection ht with ht
        subst ht
        rw [hv] at he
        obtain ⟨m', n, hm, hsubn, hviol⟩ := walkQueue_error_src [tree] e he
        have hm2 := List.mem_singleton.mp hm
        subst hm2
        exact ⟨n, hsubn, hviol⟩

/-- The parsed tree of `result = df.head()`, a benign accepted query. -/
def wTree : PyAst :=
  .module [.assign "result" (.call (.attrAccess (.name "df") "head") [])]

/-- C1 witness: the acceptance characterization applied to the concrete
accepted query `result = df.head()`. -/
theorem validate_query_characterization_witness :
    validate_query "result = df.head()" (.ok wTree) = .ok true ↔
      substringsOk "result = df.head()" = true
        ∧ ∃ t, (Except.ok wTree : Except String PyAst) = .ok t ∧ astClean t = true :=
  (validate_query_characterization "result = df.head()" (.ok wTree)
    (by decide)).1

/-! ## QueryEngine execution (`query_engine.py`)

`execute_query` and `execute_fig_code` run a validated snippet with `exec`
in a restricted namespace whose `df` binding is `df.copy()`.  `exec`
belongs to the Python runtime, so it is modelled as an oracle receiving
the code string and the frame object bound in the namespace, and returning
that object's final state together with either a raised exception's
message or the value left in the `result` (resp. `fig`) slot.  The
caller's frame is threaded explicitly through the embedding so the frame
effect of each call can be stated. -/

/-- A pandas DataFrame: its column names and its rows as
`to_dict(orient='records')` views them. -/
structure DataFrame where
  columns : List String
  rows : List Record

/-- `df.copy()`: a fresh frame object with the same contents. -/
def DataFrame.copy (d : DataFrame) : DataFrame := ⟨d.columns, d.rows⟩

/-- What a snippet can leave in the `result` slot: a DataFrame, a Series
(its name and entries), a primitive (list/dict/str/int/float/bool, with
its Python type name), or an unsupported object. -/
inductive PyObj where
  | pdf (d : DataFrame)
  | series (sname : Option String) (entries : List Value)
  | prim (v : Value) (tyName : String)
  | unsupported (tyName : String)

/-- The outcome of `exec(query_code, safe_namespace)`: the final state of
the frame object bound to `df` in the namespace, and either a raised
exception's message or `safe_namespace.get('result')` (`none` when unset
or `None`). -/
inductive ExecOutcome where
  | raised (frameAfter : DataFrame) (msg : String)
  | completed (frameAfter : DataFrame) (res : Option PyObj)

/-- Oracle model of `exec` on the query namespace. -/
abbrev ExecOracle := String → DataFrame → ExecOutcome

/-- `execute_query`'s response dict: `{success: False, error}`, a tabular
success `{data, columns, row_count, truncated}`, or a scalar success
`{data, type}`. -/
inductive QueryResult where
  | failure (error : String)
  | table (data : List Record) (columns : List String) (rowCount : Nat) (truncated : Bool)
  | scalar (data : Value) (tyName : String)

/-- `None` test for the Series `dropna`. -/
def pyIsNull : Value → Bool
  | .null => true
  | _ => false

/-- `execute_query(query_code, df, max_rows)`.  The first component is the
caller's frame after the call: the namespace binds `df.copy()`, a distinct
object, so the caller's frame comes back unchanged whatever `exec` does to
the namespace's copy — had the source bound `df` itself, this component
would instead be the oracle's `frameAfter`. -/
def executeQueryMut (pr : Except String PyAst) (run : ExecOracle)
    (code : String) (df : DataFrame) (maxRows : Nat) :
    DataFrame × QueryResult :=
  match validate_query code pr with
  | .error e => (df, .failure ("Validation failed: " ++ e.msg))
  | .ok _ =>
    match run code df.copy with
    | .raised _ msg => (df, .failure ("Execution error: " ++ msg))
    | .completed _ res =>
      match res with
      | none => (df, .failure "Query must assign result to a variable named \"result\"")
      | some (.pdf d) =>
        let rows2 := if d.rows.length > maxRows then d.rows.take maxRows else d.rows
        (df, .table rows2 d.columns rows2.length (decide (rows2.length ≥ maxRows)))
      | some (.series sname entries) =>
        let colName := sname.getD "value"
        let rows := (entries.filter fun v => !(pyIsNull v)).map fun v => [(colName, v)]
        let rows2 := if rows.length > maxRows then rows.take maxRows else rows
        (df, .table rows2 [colName] rows2.length (decide (rows2.length ≥ maxRows)))
      | some (.prim v ty) => (df, .scalar v ty)
      | some (.unsupported ty) => (df, .failure ("Unsupported result type: " ++ ty))

/-- `execute_fig_code`'s response dict. -/
inductive FigResult where
  | failureF (error : String)
  | okFig (figJson : String)

/-- The outcome of `exec` on the figure namespace: final states of the
frame bound to `df` (a copy) and of the `result` frame (bound directly,
not copied), plus either a raised message or the `fig` slot's content,
already serialized by `fig.to_json()`. -/
inductive FigExec where
  | raisedF (dfAfter : DataFrame) (resultAfter : Option DataFrame) (msg : String)
  | completedF (dfAfter : DataFrame) (resultAfter : Option DataFrame) (figJson : Option String)

/-- Oracle model of `exec` on the figure namespace. -/
abbrev FigOracle := String → DataFrame → Option DataFrame → FigExec

/-- `execute_fig_code(fig_code, df, result)`.  Components: the caller's
`df` after the call (the namespace binds `df.copy()`), the caller's
`result` frame after the call (bound directly, so the oracle's final state
comes back), and the response. -/
def executeFigMut (pr : Except String PyAst) (plotlyOk : Bool) (runFig : FigOracle)
    (figCode : String) (df : DataFrame) (result : Option DataFrame) :
    DataFrame × Option DataFrame × FigResult :=
  if figCode = "" then (df, result, .failureF "No fig_code provided")
  else
    match validate_query figCode pr with
    | .error e => (df, result, .failureF ("Validation failed: " ++ e.msg))
    | .ok _ =>
      if !plotlyOk then (df, result, .failureF "plotly is not installed")
      else
        match runFig figCode df.copy result with
        | .raisedF _ resAfter msg => (df, resAfter, .failureF ("Execution error: " ++ msg))
        | .completedF _ resAfter fig =>
          match fig with
          | none =>
            (df, resAfter,
             .failureF "fig_code must assign a Plotly figure to a variable named \"fig\"")
          | some fj => (df, resAfter, .okFig fj)

/-! ### Claims C8-C10 -/

/-- C8: for a validated snippet leaving a DataFrame in the result slot,
the tabular response is truncated to `max_rows` rows with `row_count` the
returned (capped) size and `truncated` true when the result has more rows
than the cap; a result under the cap is returned in full with `truncated`
false; a result of exactly the cap's size is returned in full with
`truncated` true (the flag is set exactly when the result reached the
cap). -/
theorem execute_query_truncation (pr : Except String PyAst) (run : ExecOracle)
    (code : String) (df : DataFrame) (maxRows : Nat) (d d' : DataFrame)
    (hval : validate_query code pr = .ok true)
    (hrun : run code df.copy = .completed d' (some (.pdf d))) :
    (d.rows.length > maxRows →
      (executeQueryMut pr run code df maxRows).2
        = .table (d.rows.take maxRows) d.columns maxRows true)
    ∧ (d.rows.length < maxRows →
      (executeQueryMut pr run code df maxRows).2
        = .table d.rows d.columns d.rows.length false)
    ∧ (d.rows.length = maxRows →
      (executeQueryMut pr run code df maxRows).2
        = .table d.rows d.columns maxRows true) := by
  refine ⟨?_, ?_, ?_⟩
  · intro hgt
    have hlen : (d.rows.take maxRows).length = maxRows := by
      rw [List.length_take]
      omega
    simp only [executeQueryMut, hval, hrun]
    rw [if_pos hgt]
    simp [hlen]
  · intro hlt
    simp only [executeQueryMut, hval, hrun]
    rw [if_neg (by omega)]
    have hd : decide (d.rows.length ≥ maxRows) = false := by
      simp
      omega
    simp [hd]
  · intro heq
    simp only [executeQueryMut, hval, hrun]
    rw [if_neg (by omega)]
    simp [heq]

/-- The parsed tree of `result = df`, a benign accepted query. -/
def wTree2 : PyAst := .module [.assign "result" (.name "df")]

/-- A three-row frame. -/
def wDf : DataFrame :=
  ⟨["a"], [[("a", .numV 1)], [("a", .numV 2)], [("a", .numV 3)]]⟩

/-- An exec oracle that completes leaving the namespace frame itself in
the result slot. -/
def wRunTable : ExecOracle := fun _ d => .completed d (some (.pdf d))

/-- C8 witness: a 3-row tabular result against a 2-row cap is truncated
with `truncated` true. -/
theorem execute_query_truncation_witness :
    (executeQueryMut (.ok wTree2) wRunTable "result = df" wDf 2).2
      = .table (wDf.rows.take 2) wDf.columns 2 true :=
  (execute_query_truncation (.ok wTree2) wRunTable "result = df" wDf 2 wDf.copy wDf.copy
    (by simp [validate_query, walkQueue, nodeViolation, pyChildren, substringsOk,
              strContains, strLower, charsHasSub, BLOCKED_SUBSTRINGS, wTree2])
    rfl).1 (by simp [wDf, DataFrame.copy])

/-- C9: `execute_query` is a total function of its inputs (no exception
escapes to the caller); a validation failure short-circuits to
`{success: false, error: "Validation failed: ..."}` with the exec oracle
never consulted (the response is the same for every oracle); and an
exception raised during execution of a validated snippet is caught and
reported as `{success: false, error: "Execution error: <detail>"}`. -/
theorem execute_query_never_raises (pr : Except String PyAst) (run : ExecOracle)
    (code : String) (df : DataFrame) (maxRows : Nat) :
    (∀ e, validate_query code pr = .error e →
      ∀ run' : ExecOracle,
        executeQueryMut pr run' code df maxRows
          = (df, .failure ("Validation failed: " ++ e.msg)))
    ∧ (validate_query code pr = .ok true →
      ∀ d' msg, run code df.copy = .raised d' msg →
        (executeQueryMut pr run code df maxRows).2
          = .failure ("Execution error: " ++ msg)) := by
  constructor
  · intro e he run'
    simp [executeQueryMut, he]
  · intro hval d' msg hrun
    simp [executeQueryMut, hval, hrun]

/-- An exec oracle that always raises. -/
def wRunRaise : ExecOracle := fun _ d => .raised d "boom"

/-- C9 witness: the empty snippet fails validation and returns the
validation failure under any exec oracle; a validated snippet whose
execution raises returns the execution failure. -/
theorem execute_query_never_raises_witness :
    executeQueryMut (.ok (.module [])) wRunTable "" wDf 1000
      = (wDf, .failure "Validation failed: Query code must be a non-empty string")
    ∧ (executeQueryMut (.ok wTree2) wRunRaise "result = df" wDf 1000).2
      = .failure "Execution error: boom" :=
  ⟨(execute_query_never_raises (.ok (.module [])) wRunTable "" wDf 1000).1
      ⟨"QueryValidationError", "Query code must be a non-empty string"⟩ rfl wRunTable,
   (execute_query_never_raises (.ok wTree2) wRunRaise "result = df" wDf 1000).2
      (by simp [validate_query, walkQueue, nodeViolation, pyChildren, substringsOk,
                strContains, strLower, charsHasSub, BLOCKED_SUBSTRINGS, wTree2])
      wDf.copy "boom" rfl⟩

/-- C10: both executors hand the caller's DataFrame back unchanged, for
every snippet, parse outcome and exec behaviour, success or failure: the
namespace binds `df.copy()`, a distinct object, so nothing the snippet
does to its `df` reaches the caller's frame. -/
theorem executor_preserves_caller_frame (pr figPr : Except String PyAst)
    (run : ExecOracle) (plotlyOk : Bool) (runFig : FigOracle)
    (code figCode : String) (df : DataFrame) (result : Option DataFrame)
    (maxRows : Nat) :
    (executeQueryMut pr run code df maxRows).1 = df
    ∧ (executeFigMut figPr plotlyOk runFig figCode df result).1 = df := by
  constructor
  · unfold executeQueryMut
    split
    · rfl
    · split
      · rfl
      · split <;> rfl
  · unfold executeFigMut
    split
    · rfl
    · split
      · rfl
      · split
        · rfl
        · split
          · rfl
          · split <;> rfl

end FiatLux
